import Mathlib

/-!
Verification of the is-academic-email classifier: a shallow embedding of
the runtime classification engine (src/index.ts) and of the pure core of
the offline dataset builder, with theorems checking the specification's
claims against the embedded code.

Strings of the program are modelled as lists of characters; the
JavaScript string methods used by the source are embedded as explicit
list functions, restricted to the ASCII behaviour the dataset and the
claims exercise.
-/

/-- Strings of the embedded program, modelled as lists of characters. -/
abbrev Str := List Char

/-- Converts a Lean string literal into the embedded string type. -/
def strL (s : String) : Str := s.data

/-- Whitespace class modelling the JavaScript whitespace of trim and of
the regex whitespace class: ASCII whitespace plus no-break space and the
byte-order mark. -/
def isJsSpace (c : Char) : Bool :=
  c = ' ' || c = '\t' || c = '\n' || c = '\r' || c = '\x0b' || c = '\x0c' ||
  c = '\u00A0' || c = '\uFEFF'

/-- Embeds trim: removes leading and trailing whitespace. -/
def jsTrim (l : Str) : Str :=
  ((l.dropWhile isJsSpace).reverse.dropWhile isJsSpace).reverse

/-- Embeds toLowerCase on the ASCII range. -/
def jsToLower (l : Str) : Str := l.map Char.toLower

/-- Part of the list after the first occurrence of the character, or none
when the character does not occur. -/
def dropThroughFirst (c : Char) : Str → Option Str
  | [] => none
  | x :: xs => if x = c then some xs else dropThroughFirst c xs

/-- Embeds the step raw.substring(raw.indexOf of the at-sign plus one) of
domainParts: everything after the first at-sign, or the whole string when
there is none. -/
def afterFirstAt (l : Str) : Str := (dropThroughFirst '@' l).getD l

/-- ASCII lowercase letter, the character class of the scheme regex. -/
def isLowerAlpha (c : Char) : Bool := 'a' ≤ c && c ≤ 'z'

/-- Embeds the removal of a leading scheme (regex: start of string, one or
more lowercase letters, colon, slash, slash). -/
def stripScheme (l : Str) : Str :=
  let letters := l.takeWhile isLowerAlpha
  let rest := l.dropWhile isLowerAlpha
  if letters ≠ [] ∧ rest.take 3 = [':', '/', '/'] then rest.drop 3 else l

/-- Embeds split(sep)[0] for a one-character separator: the part before
the first occurrence of the character. -/
def beforeFirst (c : Char) (l : Str) : Str := l.takeWhile (fun x => x ≠ c)

/-- Embeds the removal of a leading user-info segment (regex: start of
string, a run without slashes, an at-sign): when the part before the first
slash contains an at-sign, everything up to and including the last such
at-sign is removed. -/
def stripUserInfo (l : Str) : Str :=
  let pre := beforeFirst '/' l
  let rest := l.dropWhile (fun x => x ≠ '/')
  if '@' ∈ pre then (pre.reverse.takeWhile (fun x => x ≠ '@')).reverse ++ rest else l

/-- Embeds split on a one-character separator. -/
def splitOnChar (c : Char) : Str → List Str
  | [] => [[]]
  | x :: xs =>
    if x = c then [] :: splitOnChar c xs
    else
      match splitOnChar c xs with
      | [] => [[x]]
      | h :: t => (x :: h) :: t

/-- Embeds domainParts from src/index.ts: trim and lowercase, drop through
the first at-sign, strip a leading scheme, strip a leading user-info
segment, cut at the first slash and then at the first colon; an empty host
gives the empty label list, otherwise the labels are the dot-split parts
in reversed (TLD-first) order. -/
def domainParts (input : Str) : List Str :=
  let raw := jsToLower (jsTrim input)
  let host := beforeFirst ':' (beforeFirst '/' (stripUserInfo (stripScheme (afterFirstAt raw))))
  if host = [] then [] else (splitOnChar '.' host).reverse

/-- Embeds the accumulator update shared by checkSet and findSchoolNames:
a falsy (empty) accumulator becomes the part alone, otherwise the part is
prepended to the accumulator with a dot. -/
def extendSubj (subj part : Str) : Str :=
  if subj = [] then part else part ++ '.' :: subj

/-- Loop of checkSet from src/index.ts, with the accumulator explicit. -/
def checkSetGo (set : List Str) (subj : Str) : List Str → Bool
  | [] => false
  | p :: ps =>
    let subj2 := extendSubj subj p
    if subj2 ∈ set then true else checkSetGo set subj2 ps

/-- Embeds checkSet from src/index.ts; the JavaScript Set is modelled as a
list queried by membership. -/
def checkSet (set : List Str) (parts : List Str) : Bool := checkSetGo set [] parts

/-- Embeds the unpacked runtime dataset type SwotData; the Map and the two
Sets are modelled as an association list and lists queried by membership. -/
structure SwotData where
  institutions : List (Str × List Str)
  stoplist : List Str
  tlds : List Str

/-- Embeds get on the institutions map: the value of the first entry whose
key equals the subject, if any. -/
def lookupKey (k : Str) : List (Str × List Str) → Option (List Str)
  | [] => none
  | e :: rest => if e.1 = k then some e.2 else lookupKey k rest

/-- Embeds isUnderTLD from src/index.ts, with the dataset explicit. -/
def isUnderTLD (data : SwotData) (s : Str) : Bool := checkSet data.tlds (domainParts s)

/-- Embeds isStoplisted from src/index.ts, with the dataset explicit. -/
def isStoplisted (data : SwotData) (s : Str) : Bool := checkSet data.stoplist (domainParts s)

/-- Loop of findSchoolNames from src/index.ts: an entry is returned only
when present and non-empty, otherwise the walk continues. -/
def findNamesGo (inst : List (Str × List Str)) (subj : Str) : List Str → List Str
  | [] => []
  | p :: ps =>
    let subj2 := extendSubj subj p
    match lookupKey subj2 inst with
    | some names => if names = [] then findNamesGo inst subj2 ps else names
    | none => findNamesGo inst subj2 ps

/-- Embeds findSchoolNames from src/index.ts, with the dataset explicit. -/
def findSchoolNames (data : SwotData) (s : Str) : List Str :=
  findNamesGo data.institutions [] (domainParts s)

/-- Character class of the shape regex of isAcademic: neither whitespace
nor an at-sign. -/
def isAddrChar (c : Char) : Bool := !isJsSpace c && c != '@'

/-- Tests for a dot that is neither the first nor the last character. -/
def hasInteriorDot (l : Str) : Bool :=
  match l with
  | [] => false
  | _ :: rest => '.' ∈ rest.dropLast

/-- Embeds the shape regex of isAcademic (start of string, one or more
characters that are neither whitespace nor at-signs, an at-sign, one or
more such characters, a dot, one or more such characters, end of string):
the part before the first at-sign is non-empty and in the class, an
at-sign exists, and the remainder is in the class with an interior dot. -/
def validShape (l : Str) : Bool :=
  let a := l.takeWhile (fun x => x ≠ '@')
  let b := (l.dropWhile (fun x => x ≠ '@')).tail
  !a.isEmpty && a.all isAddrChar && b.all isAddrChar && hasInteriorDot b

/-- Embeds isAcademic from src/index.ts. -/
def isAcademic (data : SwotData) (email : Str) : Bool :=
  if validShape email then
    !isStoplisted data email && (isUnderTLD data email || !(findSchoolNames data email).isEmpty)
  else false

/-- Embeds the packed artifact type SwotDataPacked. -/
structure SwotDataPacked where
  institutions : List (Str × List Str)
  stoplist : List Str
  tlds : List Str

/-- Embeds the unpacking step of loadData: institution entries are kept as
loaded, stoplist and TLD entries are lowercased. -/
def unpackData (p : SwotDataPacked) : SwotData :=
  ⟨p.institutions, p.stoplist.map jsToLower, p.tlds.map jsToLower⟩

/-- Embeds loadData from src/index.ts. Reading, decompressing and parsing
the artifact file is file input and is modelled by the Option argument:
none stands for a missing or unparseable artifact, for which the catch
branch substitutes the empty packed dataset. -/
def loadData (artifact : Option SwotDataPacked) : SwotData :=
  unpackData (artifact.getD ⟨[], [], []⟩)

/-- Removes one trailing carriage return; together with splitOnChar on the
newline this models splitting on the line separator regex (an optional
carriage return then a newline). -/
def stripTrailingCR (l : Str) : Str :=
  if l.getLast? = some '\r' then l.dropLast else l

/-- Embeds split on the line separator regex of the build script. -/
def splitLines (l : Str) : List Str := (splitOnChar '\n' l).map stripTrailingCR

/-- Embeds parseSchoolFile from the build script: split into lines, trim
each, drop blank lines and comment lines starting with a hash sign. -/
def parseSchoolFile (text : Str) : List Str :=
  ((splitLines text).map jsTrim).filter (fun line => line ≠ [] ∧ line.head? ≠ some '#')

/-- Embeds the case-insensitive removal of a trailing ".txt" from the last
path segment in filePathToDomain. -/
def stripTxtSuffix (l : Str) : Str :=
  if l.length ≥ 4 ∧ jsToLower (l.drop (l.length - 4)) = strL ".txt" then
    l.take (l.length - 4)
  else l

/-- Tests whether the list ends with the given tail, modelling the
case-sensitive endsWith of the build script's walk filter. -/
def endsWithStr (tl : Str) (l : Str) : Bool := l.drop (l.length - tl.length) = tl

/-- Models the Node domainToASCII transform applied by filePathToDomain.
On the ASCII, already-valid domain keys exercised in this development the
transform is the identity; internationalized inputs are outside the scope
of the specification. -/
def domainToASCIIModel (l : Str) : Str := l

/-- Joins parts with the given character, modelling join. -/
def joinWith (c : Char) : List Str → Str
  | [] => []
  | [p] => p
  | p :: q :: ps => p ++ c :: joinWith c (q :: ps)

/-- Joins parts with dots. -/
def joinDot (parts : List Str) : Str := joinWith '.' parts

/-- Embeds filePathToDomain from the build script, with the relative path
already split into its segments (path handling is file-system glue): strip
the ".txt" from the last segment, reverse the segments, join with dots,
lowercase, ASCII-normalize. -/
def filePathToDomain (relSegments : List Str) : Str :=
  let parts := relSegments.dropLast ++ [stripTxtSuffix (relSegments.getLastD [])]
  domainToASCIIModel (jsToLower (joinDot parts.reverse))

/-- Institution file of a synthetic build tree: its path segments below
the domains root, and its text content. -/
structure InstFile where
  segments : List Str
  content : Str

/-- Reserved file names skipped by the institution walk. -/
def reservedNames : List Str := [strL "stoplist.txt", strL "tlds.txt", strL "abused.txt"]

/-- Loop of the institution walk of readSwot from the build script: skip
files not ending in ".txt" and the three reserved file names; insert the
parsed names only when non-empty and the key is not yet present. -/
def readSwotGo (acc : List (Str × List Str)) : List InstFile → List (Str × List Str)
  | [] => acc
  | f :: fs =>
    let base := f.segments.getLastD []
    if endsWithStr (strL ".txt") base ∧ base ∉ reservedNames then
      let domain := filePathToDomain f.segments
      let names := parseSchoolFile f.content
      if names ≠ [] ∧ lookupKey domain acc = none then
        readSwotGo (acc ++ [(domain, names)]) fs
      else readSwotGo acc fs
    else readSwotGo acc fs

/-- Institution map produced by readSwot from a list of walked files, in
walk order. -/
def readSwotInstitutions (files : List InstFile) : List (Str × List Str) :=
  readSwotGo [] files

/-- Eligible institution entry of one file: the canonical key and parsed
names when the file passes the filters of the walk and parses to a
non-empty list of names. -/
def instEntry (f : InstFile) : Option (Str × List Str) :=
  let base := f.segments.getLastD []
  if endsWithStr (strL ".txt") base ∧ base ∉ reservedNames then
    let names := parseSchoolFile f.content
    if names = [] then none else some (filePathToDomain f.segments, names)
  else none

/-- Shape check following the words of claim C1: a non-empty run of
characters that are neither whitespace nor at-signs, an at-sign, another
such non-empty run containing a dot anywhere. -/
def claimShape (l : Str) : Bool :=
  let a := l.takeWhile (fun x => x ≠ '@')
  let b := (l.dropWhile (fun x => x ≠ '@')).tail
  !a.isEmpty && a.all isAddrChar && b.all isAddrChar && '.' ∈ b

/-- Part after the last at-sign, or the whole string when there is none;
the discarding step as the specification words it. -/
def afterLastAt (l : Str) : Str :=
  if '@' ∈ l then (l.reverse.takeWhile (fun x => x ≠ '@')).reverse else l

/-- Domain Normalizer as claim C2 words it: trim and lowercase, discard
through the final at-sign, strip a leading scheme, cut at the first slash,
cut at the first colon, then split on dots and reverse. -/
def specDomainParts (input : Str) : List Str :=
  let raw := jsToLower (jsTrim input)
  let host := beforeFirst ':' (beforeFirst '/' (stripScheme (afterLastAt raw)))
  if host = [] then [] else (splitOnChar '.' host).reverse

/-- Domain Normalizer as amended: discard through the first at-sign, strip
a leading scheme, and only then, within the part before the first slash,
discard through the last at-sign there; finally cut at the first colon and
split as before. -/
def amendedDomainParts (input : Str) : List Str :=
  let raw := jsToLower (jsTrim input)
  let s2 := stripScheme (afterFirstAt raw)
  let pre := beforeFirst '/' s2
  let hostPart := if '@' ∈ pre then (pre.reverse.takeWhile (fun x => x ≠ '@')).reverse else pre
  let host := beforeFirst ':' hostPart
  if host = [] then [] else (splitOnChar '.' host).reverse

/-- Suffix walk as claim C3 words it, after the first label: every later
label is prepended to the accumulator with a dot, membership tested after
each extension. -/
def specWalkGo (set : List Str) (acc : Str) : List Str → Bool
  | [] => false
  | p :: ps =>
    let acc2 := p ++ '.' :: acc
    if acc2 ∈ set then true else specWalkGo set acc2 ps

/-- Suffix walk as claim C3 words it: the first iteration sets the
accumulator to that label alone, later iterations prepend with a dot. -/
def specWalkSet (set : List Str) : List Str → Bool
  | [] => false
  | p :: ps => if p ∈ set then true else specWalkGo set p ps

/-- Accumulator sequence tested by the walks of checkSet and of
findSchoolNames, in test order. -/
def accumsGo (subj : Str) : List Str → List Str
  | [] => []
  | p :: ps =>
    let subj2 := extendSubj subj p
    subj2 :: accumsGo subj2 ps

/-- Accumulator sequence of a label list, starting from the empty
accumulator. -/
def accums (parts : List Str) : List Str := accumsGo [] parts

/-- First non-empty value of the map along a list of tested suffixes. -/
def firstHit (inst : List (Str × List Str)) : List Str → List Str
  | [] => []
  | a :: rest =>
    match lookupKey a inst with
    | some ns => if ns = [] then firstHit inst rest else ns
    | none => firstHit inst rest

/-- Character allowed in a canonical domain key: not whitespace, not an
at-sign, not a slash, not a colon, and already lowercase. -/
def isKeyChar (c : Char) : Bool :=
  !isJsSpace c && c != '@' && c != '/' && c != ':' && c.toLower == c

/-- Canonical domain key as in the data model: non-empty, made of key
characters, and dot-joined from non-empty labels. -/
def isCanonicalKey (d : Str) : Bool :=
  d ≠ [] ∧ d.all isKeyChar ∧ [] ∉ splitOnChar '.' d

lemma checkSetGo_nil (subj : Str) (parts : List Str) : checkSetGo [] subj parts = false := by
  induction parts generalizing subj with
  | nil => rfl
  | cons p ps ih => simp [checkSetGo, ih]

lemma findNamesGo_nil (subj : Str) (parts : List Str) : findNamesGo [] subj parts = [] := by
  induction parts generalizing subj with
  | nil => rfl
  | cons p ps ih => simp [findNamesGo, lookupKey, ih]

/-- C4: for all inputs, a stoplisted input is never academic, whatever the
TLD set and the institution map hold. -/
theorem C4_stoplist_overrides (data : SwotData) (e : Str)
    (h : isStoplisted data e = true) : isAcademic data e = false := by
  unfold isAcademic
  split
  · simp [h]
  · rfl

theorem C4_stoplist_overrides_witness :
    isStoplisted ⟨[], [strL "gmail.com"], []⟩ (strL "u@gmail.com") = true ∧
    isAcademic ⟨[], [strL "gmail.com"], []⟩ (strL "u@gmail.com") = false :=
  ⟨by decide, C4_stoplist_overrides ⟨[], [strL "gmail.com"], []⟩ (strL "u@gmail.com") (by decide)⟩

/-- C6: a missing or unparseable artifact loads as the empty dataset, and
over the empty dataset every query returns false or the empty list on
every input string. -/
theorem C6_degraded_load :
    loadData none = ⟨[], [], []⟩ ∧ ∀ s : Str,
      isAcademic (loadData none) s = false ∧ isUnderTLD (loadData none) s = false ∧
      isStoplisted (loadData none) s = false ∧ findSchoolNames (loadData none) s = [] := by
  refine ⟨rfl, fun s => ?_⟩
  have h1 : isUnderTLD (loadData none) s = false := checkSetGo_nil [] (domainParts s)
  have h2 : isStoplisted (loadData none) s = false := checkSetGo_nil [] (domainParts s)
  have h3 : findSchoolNames (loadData none) s = [] := findNamesGo_nil [] (domainParts s)
  refine ⟨?_, h1, h2, h3⟩
  unfold isAcademic
  split
  · rw [h1, h2, h3]; rfl
  · rfl

/-- C7: building from the synthetic tree with the single institution file
edu/stanford.txt containing one name yields the institution map entry from
the reversed, extension-stripped, dot-joined, lowercased key to that name. -/
theorem C7_builder_roundtrip :
    filePathToDomain [strL "edu", strL "stanford.txt"] = strL "stanford.edu" ∧
    parseSchoolFile (strL "Stanford University") = [strL "Stanford University"] ∧
    readSwotInstitutions [⟨[strL "edu", strL "stanford.txt"], strL "Stanford University"⟩] =
      [(strL "stanford.edu", [strL "Stanford University"])] := by decide

/-- C10: the shape check of isAcademic sees the raw input, so a leading
space makes isAcademic false although the trimmed string is shape-valid
and the three normalizing queries all still match the padded string. -/
theorem C10_shape_check_untrimmed :
    validShape (jsTrim (strL " a@stanford.edu")) = true ∧
    validShape (strL " a@stanford.edu") = false ∧
    isAcademic ⟨[(strL "stanford.edu", [strL "Stanford University"])],
      [strL "stanford.edu"], [strL "edu"]⟩ (strL " a@stanford.edu") = false ∧
    isUnderTLD ⟨[(strL "stanford.edu", [strL "Stanford University"])],
      [strL "stanford.edu"], [strL "edu"]⟩ (strL " a@stanford.edu") = true ∧
    isStoplisted ⟨[(strL "stanford.edu", [strL "Stanford University"])],
      [strL "stanford.edu"], [strL "edu"]⟩ (strL " a@stanford.edu") = true ∧
    findSchoolNames ⟨[(strL "stanford.edu", [strL "Stanford University"])],
      [strL "stanford.edu"], [strL "edu"]⟩ (strL " a@stanford.edu") =
      [strL "Stanford University"] := by decide

/-- C1, counterexample: the input a-at-dot-b satisfies the claim's shape
wording (the run after the at-sign contains a dot) and the claimed result
formula evaluates to true over a dataset whose TLD set holds b, yet
isAcademic returns false because the regex requires a character on each
side of the dot. -/
theorem C1_counterexample :
    claimShape (strL "a@.b") = true ∧
    isAcademic ⟨[], [], [strL "b"]⟩ (strL "a@.b") = false ∧
    (!isStoplisted ⟨[], [], [strL "b"]⟩ (strL "a@.b") &&
      (isUnderTLD ⟨[], [], [strL "b"]⟩ (strL "a@.b") ||
        !(findSchoolNames ⟨[], [], [strL "b"]⟩ (strL "a@.b")).isEmpty)) = true := by decide

/-- C2, counterexample: on an input with a second at-sign after a slash,
the normalizer of the claim discards through the final at-sign and yields
the label d, while domainParts discards only through the first at-sign and
yields the label b. -/
theorem C2_counterexample :
    specDomainParts (strL "a@b/c@d") = [strL "d"] ∧
    domainParts (strL "a@b/c@d") = [strL "b"] ∧
    domainParts (strL "a@b/c@d") ≠ specDomainParts (strL "a@b/c@d") := by decide

/-- C3, counterexample: the label sequence of the input a-dot (an empty
label first, then the label a) is walked by checkSet with the empty label
leaving the accumulator empty, so the second test is on a alone and hits;
the claim's walk, whose first iteration fixes the accumulator to the first
label, tests the empty string and then a-dot and misses. -/
theorem C3_counterexample :
    domainParts (strL "a.") = [[], strL "a"] ∧
    checkSet [strL "a"] [[], strL "a"] = true ∧
    specWalkSet [strL "a"] [[], strL "a"] = false := by decide

lemma checkSetGo_eq_any (set : List Str) (parts : List Str) : ∀ subj,
    checkSetGo set subj parts = (accumsGo subj parts).any (fun a => decide (a ∈ set)) := by
  induction parts with
  | nil => intro subj; rfl
  | cons p ps ih =>
    intro subj
    by_cases h : extendSubj subj p ∈ set
    · simp [checkSetGo, accumsGo, h]
    · simp [checkSetGo, accumsGo, h, ih]

lemma findNamesGo_eq_firstHit (inst : List (Str × List Str)) (parts : List Str) : ∀ subj,
    findNamesGo inst subj parts = firstHit inst (accumsGo subj parts) := by
  induction parts with
  | nil => intro subj; rfl
  | cons p ps ih =>
    intro subj
    cases heq : lookupKey (extendSubj subj p) inst with
    | none => simp [findNamesGo, accumsGo, firstHit, heq, ih]
    | some ns => cases hns : ns <;> simp [findNamesGo, accumsGo, firstHit, heq, ih]

lemma firstHit_eq_nil_iff (inst : List (Str × List Str)) (l : List Str) :
    firstHit inst l = [] ↔ ∀ a ∈ l, (lookupKey a inst).getD [] = [] := by
  induction l with
  | nil => simp [firstHit]
  | cons a rest ih =>
    cases heq : lookupKey a inst with
    | none => simp [firstHit, heq, ih]
    | some ns =>
      by_cases hns : ns = []
      · subst hns; simp [firstHit, heq, ih]
      · simp [firstHit, heq, hns, ih]

lemma lookupKey_append_of_none (k : Str) (l1 l2 : List (Str × List Str))
    (h : lookupKey k l1 = none) : lookupKey k (l1 ++ l2) = lookupKey k l2 := by
  induction l1 with
  | nil => rfl
  | cons e rest ih =>
    by_cases he : e.1 = k
    · simp [lookupKey, he] at h
    · simp only [lookupKey, he, if_false, List.cons_append, if_neg he] at h ⊢
      exact ih h

lemma lookupKey_append_of_some (k : Str) (v : List Str) (l1 l2 : List (Str × List Str))
    (h : lookupKey k l1 = some v) : lookupKey k (l1 ++ l2) = some v := by
  induction l1 with
  | nil => simp [lookupKey] at h
  | cons e rest ih =>
    by_cases he : e.1 = k
    · simp only [lookupKey, if_pos he] at h ⊢
      exact h
    · simp only [lookupKey, if_neg he, List.cons_append] at h ⊢
      exact ih h

lemma lookupKey_eq_none_iff (k : Str) (l : List (Str × List Str)) :
    lookupKey k l = none ↔ k ∉ l.map Prod.fst := by
  induction l with
  | nil => simp [lookupKey]
  | cons e rest ih =>
    by_cases he : e.1 = k
    · simp [lookupKey, he]
    · simp only [lookupKey, if_neg he, List.map_cons, List.mem_cons, ih]
      constructor
      · intro h hk
        rcases hk with hk | hk
        · exact he hk.symm
        · exact h hk
      · intro h hk
        exact h (Or.inr hk)

lemma readSwotGo_lookup (k : Str) : ∀ (fs : List InstFile) (acc : List (Str × List Str)),
    lookupKey k (readSwotGo acc fs) =
      match lookupKey k acc with
      | some v => some v
      | none => lookupKey k (fs.filterMap instEntry) := by
  intro fs
  induction fs with
  | nil =>
    intro acc
    cases h : lookupKey k acc with
    | none => simp [readSwotGo, h, lookupKey]
    | some v => simp [readSwotGo, h]
  | cons f fs ih =>
    intro acc
    by_cases helig : endsWithStr (strL ".txt") (f.segments.getLastD []) ∧
        f.segments.getLastD [] ∉ reservedNames
    · by_cases hins : parseSchoolFile f.content ≠ [] ∧
          lookupKey (filePathToDomain f.segments) acc = none
      · have hgo : readSwotGo acc (f :: fs) =
            readSwotGo (acc ++ [(filePathToDomain f.segments, parseSchoolFile f.content)]) fs := by
          simp only [readSwotGo, if_pos helig, if_pos hins]
        have hent : instEntry f = some (filePathToDomain f.segments, parseSchoolFile f.content) := by
          simp only [instEntry, if_pos helig, if_neg hins.1]
        rw [hgo, ih, List.filterMap_cons, hent]
        cases hacc : lookupKey k acc with
        | some v =>
          rw [lookupKey_append_of_some k v acc _ hacc]
        | none =>
          rw [lookupKey_append_of_none k acc _ hacc]
          by_cases hk : filePathToDomain f.segments = k
          · subst hk
            simp [lookupKey]
          · simp [lookupKey, hk]
      · have hgo : readSwotGo acc (f :: fs) = readSwotGo acc fs := by
          simp only [readSwotGo, if_pos helig, if_neg hins]
        rw [hgo, ih, List.filterMap_cons]
        rcases Decidable.not_and_iff_or_not.mp hins with hnames | hdup
        · have hent : instEntry f = none := by
            have : parseSchoolFile f.content = [] := by
              by_contra hc
              exact hnames hc
            simp [instEntry, helig, this]
          rw [hent]
        · have hsome : (lookupKey (filePathToDomain f.segments) acc).isSome := by
            cases hl : lookupKey (filePathToDomain f.segments) acc with
            | none => exact absurd hl hdup
            | some w => rfl
          cases hacc : lookupKey k acc with
          | some v => rfl
          | none =>
            by_cases hpe : parseSchoolFile f.content = []
            · have hent : instEntry f = none := by
                simp [instEntry, helig, hpe]
              rw [hent]
            · have hent : instEntry f =
                  some (filePathToDomain f.segments, parseSchoolFile f.content) := by
                simp only [instEntry, if_pos helig, if_neg hpe]
              rw [hent]
              by_cases hk : filePathToDomain f.segments = k
              · rw [hk, hacc] at hsome
                simp at hsome
              · simp [lookupKey, hk]
    · have hgo : readSwotGo acc (f :: fs) = readSwotGo acc fs := by
        simp only [readSwotGo, if_neg helig]
      have hent : instEntry f = none := by
        simp only [instEntry, if_neg helig]
      rw [hgo, ih, List.filterMap_cons, hent]

lemma readSwotGo_values_ne_nil : ∀ (fs : List InstFile) (acc : List (Str × List Str)),
    (∀ p ∈ acc, p.2 ≠ []) → ∀ p ∈ readSwotGo acc fs, p.2 ≠ [] := by
  intro fs
  induction fs with
  | nil => intro acc hacc; exact hacc
  | cons f fs ih =>
    intro acc hacc
    by_cases helig : endsWithStr (strL ".txt") (f.segments.getLastD []) ∧
        f.segments.getLastD [] ∉ reservedNames
    · by_cases hins : parseSchoolFile f.content ≠ [] ∧
          lookupKey (filePathToDomain f.segments) acc = none
      · have hgo : readSwotGo acc (f :: fs) =
            readSwotGo (acc ++ [(filePathToDomain f.segments, parseSchoolFile f.content)]) fs := by
          simp only [readSwotGo, if_pos helig, if_pos hins]
        rw [hgo]
        refine ih _ ?_
        intro p hp
        rcases List.mem_append.mp hp with hp | hp
        · exact hacc p hp
        · rcases List.mem_singleton.mp hp with rfl
          exact hins.1
      · have hgo : readSwotGo acc (f :: fs) = readSwotGo acc fs := by
          simp only [readSwotGo, if_pos helig, if_neg hins]
        rw [hgo]; exact ih acc hacc
    · have hgo : readSwotGo acc (f :: fs) = readSwotGo acc fs := by
        simp only [readSwotGo, if_neg helig]
      rw [hgo]; exact ih acc hacc

lemma readSwotGo_keys_nodup : ∀ (fs : List InstFile) (acc : List (Str × List Str)),
    (acc.map Prod.fst).Nodup → (readSwotGo acc fs |>.map Prod.fst).Nodup := by
  intro fs
  induction fs with
  | nil => intro acc hacc; exact hacc
  | cons f fs ih =>
    intro acc hacc
    by_cases helig : endsWithStr (strL ".txt") (f.segments.getLastD []) ∧
        f.segments.getLastD [] ∉ reservedNames
    · by_cases hins : parseSchoolFile f.content ≠ [] ∧
          lookupKey (filePathToDomain f.segments) acc = none
      · have hgo : readSwotGo acc (f :: fs) =
            readSwotGo (acc ++ [(filePathToDomain f.segments, parseSchoolFile f.content)]) fs := by
          simp only [readSwotGo, if_pos helig, if_pos hins]
        rw [hgo]
        refine ih _ ?_
        have hnotin : filePathToDomain f.segments ∉ acc.map Prod.fst :=
          (lookupKey_eq_none_iff _ acc).mp hins.2
        simp only [List.map_append, List.map_cons, List.map_nil]
        rw [List.nodup_append]
        refine ⟨hacc, List.nodup_singleton _, ?_⟩
        intro a ha hb
        rcases List.mem_singleton.mp hb with rfl
        exact hnotin ha
      · have hgo : readSwotGo acc (f :: fs) = readSwotGo acc fs := by
          simp only [readSwotGo, if_pos helig, if_neg hins]
        rw [hgo]; exact ih acc hacc
    · have hgo : readSwotGo acc (f :: fs) = readSwotGo acc fs := by
        simp only [readSwotGo, if_neg helig]
      rw [hgo]; exact ih acc hacc

/-- C3 as amended: the walk extends the accumulator with the rule of the
code (an empty accumulator becomes the label alone, a non-empty one gets
the label prepended with a dot) and tests after each extension, so the set
walk is true exactly when some tested accumulator is in the set, taken in
TLD-first order, and the map walk returns the value of the first tested
accumulator with a non-empty entry: the least specific matching suffix
wins. -/
theorem C3_amended_walk_decomposition (set : List Str) (inst : List (Str × List Str))
    (parts : List Str) :
    checkSet set parts = (accums parts).any (fun a => decide (a ∈ set)) ∧
    findNamesGo inst [] parts = firstHit inst (accums parts) :=
  ⟨checkSetGo_eq_any set parts [], findNamesGo_eq_firstHit inst parts []⟩

/-- C9: findSchoolNames returns the empty list exactly when no tested
suffix of the walk maps to a non-empty entry; in particular an entry
holding the empty list is skipped and the walk continues toward more
specific suffixes. -/
theorem C9_empty_entry_skipped (data : SwotData) (s : Str) :
    findSchoolNames data s = [] ↔
      ∀ a ∈ accums (domainParts s), (lookupKey a data.institutions).getD [] = [] := by
  unfold findSchoolNames
  rw [findNamesGo_eq_firstHit data.institutions (domainParts s) []]
  exact firstHit_eq_nil_iff data.institutions (accums (domainParts s))

/-- C8: after any builder run the institution map holds only non-empty
name lists, its keys are pairwise distinct, and looking a key up agrees
with looking it up in the raw sequence of eligible file entries, whose
first entry for a key is therefore the one that wins. -/
theorem C8_institution_map_invariants (files : List InstFile) :
    ((readSwotInstitutions files).all (fun p => !p.2.isEmpty)) = true ∧
    ((readSwotInstitutions files).map Prod.fst).Nodup ∧
    ∀ k, lookupKey k (readSwotInstitutions files) = lookupKey k (files.filterMap instEntry) := by
  refine ⟨?_, ?_, ?_⟩
  · rw [List.all_eq_true]
    intro p hp
    have h := readSwotGo_values_ne_nil files [] (by intro p hp; simp at hp) p hp
    simp [List.isEmpty_iff, h]
  · exact readSwotGo_keys_nodup files [] (by simp)
  · intro k
    have h := readSwotGo_lookup k files []
    simpa [lookupKey] using h

lemma dropWhile_eq_self_of_all (p : Char → Bool) (l : Str)
    (h : ∀ c ∈ l, p c = false) : l.dropWhile p = l := by
  cases l with
  | nil => rfl
  | cons x xs =>
    rw [List.dropWhile_cons, h x (List.mem_cons_self x xs)]
    simp

lemma takeWhile_eq_self_of_all (p : Char → Bool) (l : Str)
    (h : ∀ c ∈ l, p c = true) : l.takeWhile p = l := by
  induction l with
  | nil => rfl
  | cons x xs ih =>
    rw [List.takeWhile_cons, h x (List.mem_cons_self x xs)]
    simp only [if_true]
    rw [ih (fun c hc => h c (List.mem_cons_of_mem x hc))]

lemma mem_of_mem_takeWhile (p : Char → Bool) (l : Str) (a : Char)
    (h : a ∈ l.takeWhile p) : a ∈ l := by
  induction l with
  | nil => simp [List.takeWhile] at h
  | cons x xs ih =>
    rw [List.takeWhile_cons] at h
    by_cases hx : p x
    · rw [if_pos hx] at h
      rcases List.mem_cons.mp h with rfl | h
      · exact List.mem_cons_self a xs
      · exact List.mem_cons_of_mem x (ih h)
    · rw [if_neg hx] at h
      simp at h

lemma pred_of_mem_takeWhile (p : Char → Bool) (l : Str) (a : Char)
    (h : a ∈ l.takeWhile p) : p a = true := by
  induction l with
  | nil => simp [List.takeWhile] at h
  | cons x xs ih =>
    rw [List.takeWhile_cons] at h
    by_cases hx : p x
    · rw [if_pos hx] at h
      rcases List.mem_cons.mp h with rfl | h
      · exact hx
      · exact ih h
    · rw [if_neg hx] at h
      simp at h

lemma mem_of_mem_dropWhile (p : Char → Bool) (l : Str) (a : Char)
    (h : a ∈ l.dropWhile p) : a ∈ l := by
  induction l with
  | nil => simp [List.dropWhile] at h
  | cons x xs ih =>
    rw [List.dropWhile_cons] at h
    by_cases hx : p x
    · rw [if_pos hx] at h
      exact List.mem_cons_of_mem x (ih h)
    · rw [if_neg hx] at h
      exact h

lemma dropWhile_head_false (p : Char → Bool) (l : Str) (x : Char) (xs : Str)
    (h : l.dropWhile p = x :: xs) : p x = false := by
  induction l with
  | nil => simp [List.dropWhile] at h
  | cons a as ih =>
    rw [List.dropWhile_cons] at h
    by_cases ha : p a
    · rw [if_pos ha] at h
      exact ih h
    · rw [if_neg ha] at h
      cases h
      exact Bool.eq_false_iff.mpr ha

lemma takeWhile_append_of_all (p : Char → Bool) (A B : Str)
    (hA : ∀ a ∈ A, p a = true) : (A ++ B).takeWhile p = A ++ B.takeWhile p := by
  induction A with
  | nil => rfl
  | cons a A ih =>
    rw [List.cons_append, List.takeWhile_cons, hA a (List.mem_cons_self a A)]
    simp only [if_true]
    rw [ih (fun c hc => hA c (List.mem_cons_of_mem a hc)), List.cons_append]

lemma takeWhile_append_cons (p : Char → Bool) (A B : Str) (x : Char)
    (hA : ∀ a ∈ A, p a = true) (hx : p x = false) : (A ++ x :: B).takeWhile p = A := by
  rw [takeWhile_append_of_all p A (x :: B) hA, List.takeWhile_cons, hx]
  simp

lemma dropWhile_append_cons (p : Char → Bool) (A B : Str) (x : Char)
    (hA : ∀ a ∈ A, p a = true) (hx : p x = false) : (A ++ x :: B).dropWhile p = x :: B := by
  induction A with
  | nil =>
    rw [List.nil_append, List.dropWhile_cons, hx]
    simp
  | cons a A ih =>
    rw [List.cons_append, List.dropWhile_cons, hA a (List.mem_cons_self a A)]
    simp only [if_true]
    exact ih (fun c hc => hA c (List.mem_cons_of_mem a hc))

lemma dropThroughFirst_of_not_mem (c : Char) (l : Str) (h : c ∉ l) :
    dropThroughFirst c l = none := by
  induction l with
  | nil => rfl
  | cons x xs ih =>
    have hx : x ≠ c := fun hxc => h (hxc ▸ List.mem_cons_self x xs)
    rw [dropThroughFirst, if_neg hx]
    exact ih (fun hc => h (List.mem_cons_of_mem x hc))

lemma splitOnChar_ne_nil (c : Char) (l : Str) : splitOnChar c l ≠ [] := by
  cases l with
  | nil => simp [splitOnChar]
  | cons x xs =>
    rw [splitOnChar]
    by_cases hx : x = c
    · simp [hx]
    · rw [if_neg hx]
      cases splitOnChar c xs <;> simp

lemma joinWith_cons_of_ne_nil (c : Char) (x : Str) (l : List Str) (h : l ≠ []) :
    joinWith c (x :: l) = x ++ c :: joinWith c l := by
  cases l with
  | nil => exact absurd rfl h
  | cons y ys => rfl

lemma joinWith_splitOnChar (c : Char) (l : Str) : joinWith c (splitOnChar c l) = l := by
  induction l with
  | nil => rfl
  | cons x xs ih =>
    rw [splitOnChar]
    by_cases hx : x = c
    · rw [if_pos hx, joinWith_cons_of_ne_nil c [] _ (splitOnChar_ne_nil c xs), ih,
        List.nil_append, hx]
    · rw [if_neg hx]
      cases hs : splitOnChar c xs with
      | nil => exact absurd hs (splitOnChar_ne_nil c xs)
      | cons h t =>
        cases t with
        | nil =>
          rw [hs] at ih
          simp only [joinWith] at ih ⊢
          rw [ih]
        | cons u us =>
          rw [hs] at ih
          rw [joinWith_cons_of_ne_nil c (x :: h) (u :: us) (by simp),
            joinWith_cons_of_ne_nil c h (u :: us) (by simp)] at *
          rw [List.cons_append, ih]

lemma jsTrim_eq_self (l : Str) (h : ∀ c ∈ l, isJsSpace c = false) : jsTrim l = l := by
  unfold jsTrim
  rw [dropWhile_eq_self_of_all _ _ h,
    dropWhile_eq_self_of_all _ _ (fun c hc => h c (List.mem_reverse.mp hc)),
    List.reverse_reverse]

lemma jsToLower_eq_self (l : Str) (h : ∀ c ∈ l, c.toLower = c) : jsToLower l = l := by
  induction l with
  | nil => rfl
  | cons x xs ih =>
    unfold jsToLower at *
    rw [List.map_cons, h x (List.mem_cons_self x xs),
      ih (fun c hc => h c (List.mem_cons_of_mem x hc))]

lemma isKeyChar_props (c : Char) (h : isKeyChar c = true) :
    isJsSpace c = false ∧ c ≠ '@' ∧ c ≠ '/' ∧ c ≠ ':' ∧ c.toLower = c := by
  simp only [isKeyChar, Bool.and_eq_true, Bool.not_eq_true', bne_iff_ne, beq_iff_eq] at h
  exact ⟨h.1.1.1.1, h.1.1.1.2, h.1.1.2, h.1.2, h.2⟩

lemma isCanonicalKey_props (d : Str) (h : isCanonicalKey d = true) :
    d ≠ [] ∧ (∀ c ∈ d, isKeyChar c = true) ∧ [] ∉ splitOnChar '.' d := by
  simp only [isCanonicalKey, decide_eq_true_eq] at h
  refine ⟨h.1, ?_, h.2.2⟩
  have := h.2.1
  rw [List.all_eq_true] at this
  exact this

lemma stripScheme_eq_self_of_no_colon (l : Str) (h : ':' ∉ l) : stripScheme l = l := by
  have hcond : ¬(l.takeWhile isLowerAlpha ≠ [] ∧
      (l.dropWhile isLowerAlpha).take 3 = [':', '/', '/']) := by
    rintro ⟨-, h3⟩
    have h1 : ':' ∈ (l.dropWhile isLowerAlpha).take 3 := by rw [h3]; simp
    have h2 : ':' ∈ l.dropWhile isLowerAlpha := List.mem_of_mem_take h1
    exact h (mem_of_mem_dropWhile _ _ _ h2)
  simp only [stripScheme]
  rw [if_neg hcond]

lemma stripUserInfo_eq_self_of_not_mem (l : Str) (h : '@' ∉ l) : stripUserInfo l = l := by
  have hcond : '@' ∉ beforeFirst '/' l := fun hc => h (mem_of_mem_takeWhile _ _ _ hc)
  simp only [stripUserInfo]
  rw [if_neg hcond]

lemma beforeFirst_eq_self (c : Char) (l : Str) (h : c ∉ l) : beforeFirst c l = l := by
  unfold beforeFirst
  refine takeWhile_eq_self_of_all _ l (fun x hx => ?_)
  simp only [decide_eq_true_eq]
  exact fun hxc => h (hxc ▸ hx)

lemma canonicalHost (d : Str) (hall : ∀ c ∈ d, isKeyChar c = true) :
    beforeFirst ':' (beforeFirst '/' (stripUserInfo (stripScheme d))) = d := by
  have hat : '@' ∉ d := fun hc => (isKeyChar_props _ (hall _ hc)).2.1 rfl
  have hsl : '/' ∉ d := fun hc => (isKeyChar_props _ (hall _ hc)).2.2.1 rfl
  have hco : ':' ∉ d := fun hc => (isKeyChar_props _ (hall _ hc)).2.2.2.1 rfl
  rw [stripScheme_eq_self_of_no_colon d hco, stripUserInfo_eq_self_of_not_mem d hat,
    beforeFirst_eq_self '/' d hsl, beforeFirst_eq_self ':' d hco]

lemma domainParts_canonical (d : Str) (hcan : isCanonicalKey d = true) :
    domainParts d = (splitOnChar '.' d).reverse := by
  obtain ⟨hne, hall, _⟩ := isCanonicalKey_props d hcan
  have hat : '@' ∉ d := fun hc => (isKeyChar_props _ (hall _ hc)).2.1 rfl
  have hraw : jsToLower (jsTrim d) = d := by
    rw [jsTrim_eq_self d (fun c hc => (isKeyChar_props _ (hall _ hc)).1),
      jsToLower_eq_self d (fun c hc => (isKeyChar_props _ (hall _ hc)).2.2.2.2)]
  have hafter : afterFirstAt d = d := by
    unfold afterFirstAt
    rw [dropThroughFirst_of_not_mem '@' d hat]
    rfl
  simp only [domainParts]
  rw [hraw, hafter, canonicalHost d hall, if_neg hne]

lemma joinDot_append_pair (xs : List Str) (a b : Str) :
    joinDot (xs ++ [a, b]) = joinDot (xs ++ [a ++ '.' :: b]) := by
  induction xs with
  | nil => rfl
  | cons x xs ih =>
    simp only [joinDot] at *
    rw [List.cons_append, List.cons_append,
      joinWith_cons_of_ne_nil '.' x (xs ++ [a, b]) (by simp),
      joinWith_cons_of_ne_nil '.' x (xs ++ [a ++ '.' :: b]) (by simp), ih]

lemma foldl_extend_eq_joinDot (ps : List Str) : ∀ subj : Str,
    List.foldl (fun s p => p ++ '.' :: s) subj ps = joinDot (ps.reverse ++ [subj]) := by
  induction ps with
  | nil => intro subj; rfl
  | cons p ps ih =>
    intro subj
    rw [List.foldl_cons, ih (p ++ '.' :: subj), List.reverse_cons, List.append_assoc]
    exact (joinDot_append_pair ps.reverse p subj).symm

lemma checkSetGo_hit (set : List Str) (ps : List Str) : ∀ subj : Str, subj ≠ [] →
    List.foldl (fun s p => p ++ '.' :: s) subj ps ∈ set →
    checkSetGo set subj ps = true ∨ subj ∈ set := by
  induction ps with
  | nil => intro subj _ h; exact Or.inr h
  | cons p ps ih =>
    intro subj hne h
    have hsubj2 : extendSubj subj p = p ++ '.' :: subj := by simp [extendSubj, hne]
    rw [List.foldl_cons] at h
    rcases ih (p ++ '.' :: subj) (by simp) h with h1 | h1
    · left
      by_cases hm : p ++ '.' :: subj ∈ set
      · simp [checkSetGo, hsubj2, hm]
      · simp [checkSetGo, hsubj2, hm, h1]
    · left
      simp [checkSetGo, hsubj2, h1]

lemma checkSet_of_canonical_mem (set : List Str) (d : Str) (hcan : isCanonicalKey d = true)
    (hmem : d ∈ set) : checkSet set ((splitOnChar '.' d).reverse) = true := by
  obtain ⟨hne, hall, hlab⟩ := isCanonicalKey_props d hcan
  cases hp : (splitOnChar '.' d).reverse with
  | nil =>
    exfalso
    have h0 := splitOnChar_ne_nil '.' d
    rw [← List.reverse_reverse (splitOnChar '.' d), hp] at h0
    simp at h0
  | cons p ps =>
    have hpne : p ≠ [] := by
      intro h0
      apply hlab
      have hmp : p ∈ (splitOnChar '.' d).reverse := by
        rw [hp]
        exact List.mem_cons_self p ps
      rw [List.mem_reverse] at hmp
      rw [h0] at hmp
      exact hmp
    have hext : extendSubj [] p = p := by simp [extendSubj]
    have hfold : List.foldl (fun s q => q ++ '.' :: s) p ps = d := by
      rw [foldl_extend_eq_joinDot]
      have hrev : ps.reverse ++ [p] = (p :: ps).reverse := (List.reverse_cons p ps).symm
      rw [hrev, ← hp, List.reverse_reverse]
      exact joinWith_splitOnChar '.' d
    have hhit := checkSetGo_hit set ps p hpne (hfold ▸ hmem)
    unfold checkSet
    by_cases hm : p ∈ set
    · simp [checkSetGo, hext, hm]
    · rcases hhit with h1 | h1
      · simp [checkSetGo, hext, hm, h1]
      · exact absurd h1 hm

lemma domainParts_user_at_canonical (d : Str) (hcan : isCanonicalKey d = true) :
    domainParts (strL "user@" ++ d) = (splitOnChar '.' d).reverse := by
  obtain ⟨hne, hall, _⟩ := isCanonicalKey_props d hcan
  have hlit : ∀ c ∈ (['u', 's', 'e', 'r', '@'] : Str),
      isJsSpace c = false ∧ Char.toLower c = c := by decide
  have heq : strL "user@" = ['u', 's', 'e', 'r', '@'] := rfl
  have hsp : ∀ c ∈ strL "user@" ++ d, isJsSpace c = false := by
    intro c hc
    rcases List.mem_append.mp hc with hc | hc
    · rw [heq] at hc
      exact (hlit c hc).1
    · exact (isKeyChar_props _ (hall _ hc)).1
  have hlo : ∀ c ∈ strL "user@" ++ d, c.toLower = c := by
    intro c hc
    rcases List.mem_append.mp hc with hc | hc
    · rw [heq] at hc
      exact (hlit c hc).2
    · exact (isKeyChar_props _ (hall _ hc)).2.2.2.2
  have hraw : jsToLower (jsTrim (strL "user@" ++ d)) = strL "user@" ++ d := by
    rw [jsTrim_eq_self _ hsp, jsToLower_eq_self _ hlo]
  have hafter : afterFirstAt (strL "user@" ++ d) = d := rfl
  simp only [domainParts]
  rw [hraw, hafter, canonicalHost d hall, if_neg hne]

/-- C5: a canonical key of the stoplist is itself reported stoplisted, and
so is the key prefixed with an email local part, since the normalizer
reconstructs the key during the suffix walk. -/
theorem C5_stoplist_key_roundtrip (data : SwotData) (d : Str)
    (hmem : d ∈ data.stoplist) (hcan : isCanonicalKey d = true) :
    isStoplisted data d = true ∧ isStoplisted data (strL "user@" ++ d) = true := by
  constructor
  · unfold isStoplisted
    rw [domainParts_canonical d hcan]
    exact checkSet_of_canonical_mem data.stoplist d hcan hmem
  · unfold isStoplisted
    rw [domainParts_user_at_canonical d hcan]
    exact checkSet_of_canonical_mem data.stoplist d hcan hmem

theorem C5_stoplist_key_roundtrip_witness :
    (strL "gmail.com" ∈ (⟨[], [strL "gmail.com"], []⟩ : SwotData).stoplist ∧
      isCanonicalKey (strL "gmail.com") = true) ∧
    isStoplisted ⟨[], [strL "gmail.com"], []⟩ (strL "gmail.com") = true ∧
    isStoplisted ⟨[], [strL "gmail.com"], []⟩ (strL "user@" ++ strL "gmail.com") = true :=
  ⟨⟨by decide, by decide⟩,
    C5_stoplist_key_roundtrip ⟨[], [strL "gmail.com"], []⟩ (strL "gmail.com")
      (by decide) (by decide)⟩

lemma isAddrChar_ne_at (c : Char) (h : isAddrChar c = true) : c ≠ '@' := by
  simp only [isAddrChar, Bool.and_eq_true, bne_iff_ne] at h
  exact h.2

lemma hasInteriorDot_iff (l : Str) :
    hasInteriorDot l = true ↔ ∃ C D, l = C ++ '.' :: D ∧ C ≠ [] ∧ D ≠ [] := by
  constructor
  · intro h
    cases l with
    | nil => simp [hasInteriorDot] at h
    | cons b rest =>
      simp only [hasInteriorDot, decide_eq_true_eq] at h
      have hrne : rest ≠ [] := by
        intro h0
        rw [h0] at h
        simp at h
      obtain ⟨X, Y, hXY⟩ := List.append_of_mem h
      have hres : rest = rest.dropLast ++ [rest.getLast hrne] :=
        (List.dropLast_append_getLast hrne).symm
      refine ⟨b :: X, Y ++ [rest.getLast hrne], ?_, by simp, by simp⟩
      rw [List.cons_append]
      congr 1
      rw [hXY] at hres
      calc rest = (X ++ '.' :: Y) ++ [rest.getLast hrne] := hres
        _ = X ++ '.' :: (Y ++ [rest.getLast hrne]) := by simp
  · rintro ⟨C, D, rfl, hC, hD⟩
    cases C with
    | nil => exact absurd rfl hC
    | cons c C2 =>
      cases D with
      | nil => exact absurd rfl hD
      | cons d D2 =>
        simp only [List.cons_append, hasInteriorDot, decide_eq_true_eq]
        rw [List.dropLast_append_of_ne_nil C2 (by simp)]
        simp

lemma validShape_iff (l : Str) : validShape l = true ↔
    ∃ A B, l = A ++ '@' :: B ∧ A ≠ [] ∧ (∀ c ∈ A, isAddrChar c = true) ∧
      (∀ c ∈ B, isAddrChar c = true) ∧ ∃ C D, B = C ++ '.' :: D ∧ C ≠ [] ∧ D ≠ [] := by
  constructor
  · intro h
    simp only [validShape, Bool.and_eq_true] at h
    obtain ⟨⟨⟨hA1, hA2⟩, hB⟩, hdot⟩ := h
    cases hdw : l.dropWhile (fun x => decide (x ≠ '@')) with
    | nil =>
      rw [hdw] at hdot
      simp [hasInteriorDot] at hdot
    | cons x B =>
      have hx : x = '@' := by
        have hh := dropWhile_head_false _ l x B hdw
        simpa using hh
      have hsplit := List.takeWhile_append_dropWhile (fun x => decide (x ≠ '@')) l
      rw [hdw, hx] at hsplit
      refine ⟨l.takeWhile (fun x => decide (x ≠ '@')), B, hsplit.symm, ?_, ?_, ?_, ?_⟩
      · intro h0
        rw [h0] at hA1
        simp at hA1
      · rw [List.all_eq_true] at hA2
        exact hA2
      · rw [hdw] at hB
        simp only [List.tail_cons] at hB
        rw [List.all_eq_true] at hB
        exact hB
      · rw [hdw] at hdot
        simp only [List.tail_cons] at hdot
        exact (hasInteriorDot_iff B).mp hdot
  · rintro ⟨A, B, rfl, hAne, hA2, hB2, hint⟩
    have hAp : ∀ a ∈ A, (fun x => decide (x ≠ '@')) a = true := by
      intro a ha
      simp only [decide_eq_true_eq]
      exact isAddrChar_ne_at a (hA2 a ha)
    have hatp : (fun x => decide (x ≠ '@')) '@' = false := by simp
    have htake := takeWhile_append_cons _ A B '@' hAp hatp
    have hdrop := dropWhile_append_cons _ A B '@' hAp hatp
    simp only [validShape, htake, hdrop, List.tail_cons, Bool.and_eq_true]
    refine ⟨⟨⟨?_, ?_⟩, ?_⟩, ?_⟩
    · cases A with
      | nil => exact absurd rfl hAne
      | cons a A2 => rfl
    · rw [List.all_eq_true]
      exact hA2
    · rw [List.all_eq_true]
      exact hB2
    · exact (hasInteriorDot_iff B).mpr hint

/-- C1 as amended: isAcademic is true exactly when the input decomposes as
a non-empty whitespace-free at-sign-free local part, an at-sign, and a
domain part of the same character class containing a dot with at least one
such character on each side, and the input is not stoplisted, and it is
under a known TLD or carries institution names. The only change against
the claim is that a dot at the very start or very end of the domain part
does not make the shape valid. -/
theorem C1_amended_academic_iff (data : SwotData) (email : Str) :
    isAcademic data email = true ↔
      ((∃ A B, email = A ++ '@' :: B ∧ A ≠ [] ∧ (∀ c ∈ A, isAddrChar c = true) ∧
          (∀ c ∈ B, isAddrChar c = true) ∧ ∃ C D, B = C ++ '.' :: D ∧ C ≠ [] ∧ D ≠ []) ∧
        isStoplisted data email = false ∧
        (isUnderTLD data email = true ∨ findSchoolNames data email ≠ [])) := by
  constructor
  · intro hac
    have hv : validShape email = true := by
      by_contra hv
      unfold isAcademic at hac
      rw [if_neg hv] at hac
      exact Bool.false_ne_true hac
    unfold isAcademic at hac
    rw [if_pos hv] at hac
    simp only [Bool.and_eq_true, Bool.not_eq_true', Bool.or_eq_true] at hac
    refine ⟨(validShape_iff email).mp hv, hac.1, ?_⟩
    rcases hac.2 with h1 | h1
    · exact Or.inl h1
    · right
      intro h0
      rw [h0] at h1
      simp at h1
  · rintro ⟨hshape, hstop, hmatch⟩
    have hv : validShape email = true := (validShape_iff email).mpr hshape
    unfold isAcademic
    rw [if_pos hv, hstop]
    simp only [Bool.not_false, Bool.true_and]
    rcases hmatch with h1 | h1
    · rw [h1]
      rfl
    · have hne : (findSchoolNames data email).isEmpty = false := by
        cases hfs : findSchoolNames data email with
        | nil => exact absurd hfs h1
        | cons n ns => rfl
      rw [hne]
      simp

lemma beforeFirst_stripUserInfo (l : Str) :
    beforeFirst '/' (stripUserInfo l) =
      if '@' ∈ beforeFirst '/' l then
        ((beforeFirst '/' l).reverse.takeWhile (fun x => x ≠ '@')).reverse
      else beforeFirst '/' l := by
  by_cases h : '@' ∈ beforeFirst '/' l
  · rw [if_pos h]
    simp only [stripUserInfo]
    rw [if_pos h]
    unfold beforeFirst at h ⊢
    have hv : ∀ x ∈ (List.takeWhile (fun x => decide (x ≠ '@'))
        (List.takeWhile (fun x => decide (x ≠ '/')) l).reverse).reverse,
        (fun x => decide (x ≠ '/')) x = true := by
      intro x hx
      rw [List.mem_reverse] at hx
      have h1 : x ∈ (List.takeWhile (fun x => decide (x ≠ '/')) l).reverse :=
        mem_of_mem_takeWhile _ _ _ hx
      rw [List.mem_reverse] at h1
      exact pred_of_mem_takeWhile _ l x h1
    rw [takeWhile_append_of_all _ _ _ hv]
    cases hr : l.dropWhile (fun x => decide (x ≠ '/')) with
    | nil => simp
    | cons x xs =>
      have hx := dropWhile_head_false _ l x xs hr
      rw [List.takeWhile_cons, hx]
      simp
  · rw [if_neg h]
    simp only [stripUserInfo]
    rw [if_neg h]

/-- C2 as amended: the Domain Normalizer discards through the first
at-sign, strips a leading scheme, and then discards through the last
at-sign of the part before the first slash; with the final-at-sign step
replaced by this two-stage rule the described pipeline computes exactly
domainParts. -/
theorem C2_amended_normalizer (input : Str) :
    domainParts input = amendedDomainParts input := by
  simp only [domainParts, amendedDomainParts, beforeFirst_stripUserInfo]
